import Mathlib

set_option maxHeartbeats 1600000

/-
Shallow embedding of winsparkle's src/appcast.cpp: the Sparkle-style version
comparator (ClassifyChar / SplitVersionString / CompareVersions) and the
expat-driven appcast parser (ContextData, OnStartElement, OnEndElement,
OnText, Appcast::Load, and the process-wide last_version).

Strings are modelled as Lean String; tokens of a version string are modelled
as List Char (std::string is a char sequence).  C `int` counters are modelled
as Int (they are not clamped in the source and may go negative).
-/

/-- Character classification, from ClassifyChar in appcast.cpp: period, digit,
or anything else ("string fragment"). -/
inductive CharType where
  | number
  | period
  | str
deriving DecidableEq

/-- ClassifyChar from appcast.cpp. -/
def ClassifyChar (c : Char) : CharType :=
  if c = '.' then CharType.period
  else if '0' ≤ c ∧ c ≤ '9' then CharType.number
  else CharType.str

/-- Loop body of SplitVersionString: accumulate the current segment `s` of
classification `prevType` over the remaining characters.  A new segment starts
when the classification changes or the previous character was a period. -/
def splitGo (s : List Char) (prevType : CharType) : List Char → List (List Char)
  | [] => [s]
  | c :: rest =>
      let newType := ClassifyChar c
      if prevType ≠ newType ∨ prevType = CharType.period then
        s :: splitGo [c] newType rest
      else
        splitGo (s ++ [c]) newType rest

/-- SplitVersionString from appcast.cpp: split a version string into maximal
runs of same-class characters, except that a period always ends a token. -/
def SplitVersionString (version : List Char) : List (List Char) :=
  match version with
  | [] => []
  | c :: rest => splitGo [c] (ClassifyChar c) rest

/-- Classification of a token by its first character, as the source does with
`ClassifyChar(a[0])`.  Tokens produced by SplitVersionString are never empty;
the empty case is arbitrary. -/
def classOf : List Char → CharType
  | [] => CharType.str
  | c :: _ => ClassifyChar c

/-- Value of the leading digit run of a string, most significant digit first
(the tolerant integer parse: anything after the leading digits is ignored). -/
def digitsValue (acc : Nat) : List Char → Nat
  | [] => acc
  | c :: cs =>
      if '0' ≤ c ∧ c ≤ '9' then digitsValue (acc * 10 + (c.toNat - '0'.toNat)) cs
      else acc

/-- The C atoi applied to a version token.  On Windows (msvcrt/MSVC, the
platform of this source) atoi saturates at INT_MAX = 2147483647 on overflow.
Tokens reaching atoi are digit runs, so no sign or whitespace handling is
needed. -/
def atoi (s : List Char) : Int :=
  ((min (digitsValue 0 s) 2147483647 : Nat) : Int)

/-- Three-way comparison returning -1, 0 or 1, used to phrase the sign of
comparisons in this development. -/
def cmp3 {α : Type} [LinearOrder α] (a b : α) : Int :=
  if a < b then -1 else if b < a then 1 else 0

/-- Generic lexicographic walk over two lists: compare elements pairwise with
`f` while they agree, and compare a leftover element `a` of the longer list
against the virtual end of the shorter one with `e a` (positive meaning the
longer list is greater at that point). -/
def lexWalk {α : Type} (f : α → α → Int) (e : α → Int) : List α → List α → Int
  | [], [] => 0
  | a :: as, [] => if e a = 0 then lexWalk f e as [] else e a
  | [], b :: bs => if e b = 0 then lexWalk f e [] bs else - e b
  | a :: as, b :: bs => if f a b = 0 then lexWalk f e as bs else f a b
termination_by xs ys => xs.length + ys.length

/-- Byte-wise comparison of two char sequences with sign-normalised result:
the documented behaviour of std::string::compare (memcmp order on the common
prefix, then the shorter string is smaller). -/
def charsCmp (a b : List Char) : Int :=
  lexWalk (fun x y => cmp3 x.toNat y.toNat) (fun _ => 1) a b

/-- Comparison of two version tokens at one position of the pairwise walk of
CompareVersions: same-class tokens compare by string bytes (String class), by
atoi value (Number class) or are equal (Period class); a Number or Period
token ranks above a String token, and Number above Period. -/
def tokCmp (a b : List Char) : Int :=
  let typeA := classOf a
  let typeB := classOf b
  if typeA = typeB then
    if typeA = CharType.str then charsCmp a b
    else if typeA = CharType.number then
      (if atoi a > atoi b then 1 else if atoi a < atoi b then -1 else 0)
    else 0
  else
    if typeA ≠ CharType.str ∧ typeB = CharType.str then 1
    else if typeA = CharType.str ∧ typeB ≠ CharType.str then -1
    else if typeA = CharType.number then 1 else -1

/-- The token-sequence walk of CompareVersions: the loop over the common
prefix with early return on a decisive token comparison, then 0 on equal
lengths, else the tail rule on the first extra token of the longer sequence
(a String-class extra token makes the shorter version greater, a Number or
Period extra token makes the longer version greater). -/
def versionWalk : List (List Char) → List (List Char) → Int
  | [], [] => 0
  | a :: _, [] => if classOf a = CharType.str then -1 else 1
  | [], b :: _ => if classOf b = CharType.str then 1 else -1
  | a :: as, b :: bs => if tokCmp a b = 0 then versionWalk as bs else tokCmp a b

/-- CompareVersions from appcast.cpp. -/
def CompareVersions (verA verB : String) : Int :=
  versionWalk (SplitVersionString verA.toList) (SplitVersionString verB.toList)

/-- Sign of the comparison of a leftover token against the virtual end of the
exhausted token sequence, per the tail rule of CompareVersions. -/
def tailSign (t : List Char) : Int :=
  if classOf t = CharType.str then -1 else 1

/-- Rank of a token class in the cross-class rule of CompareVersions:
String below Period below Number. -/
def crank : CharType → Nat
  | CharType.str => 0
  | CharType.period => 1
  | CharType.number => 2

/- ----------------------------------------------------------------------
XML parsing state (ContextData and the three expat handlers)
---------------------------------------------------------------------- -/

/-- The update descriptor built by the parser.  Modelled from the spec: the
Appcast class declaration (appcast.h) is not part of the given sources; per
spec section 3 it has six string fields, all initially empty. -/
structure Appcast where
  DownloadURL : String
  Version : String
  ShortVersionString : String
  Title : String
  Description : String
  ReleaseNotesURL : String
deriving DecidableEq

/-- An appcast with all fields empty. -/
def emptyAppcast : Appcast := ⟨"", "", "", "", "", ""⟩

/-- The mutable state visible to the expat callbacks: the ContextData counters
and descriptor of appcast.cpp, together with the process-wide static
last_version (threaded explicitly). -/
structure ParseState where
  appcast : Appcast
  in_channel : Int
  in_item : Int
  in_relnotes : Int
  in_title : Int
  in_description : Int
  last_version : String
deriving DecidableEq

/-- Namespace constant NS_SPARKLE of appcast.cpp. -/
def NS_SPARKLE : String := "http://www.andymatuschak.org/xml-namespaces/sparkle"

/-- Element name constant NODE_CHANNEL. -/
def NODE_CHANNEL : String := "channel"

/-- Element name constant NODE_ITEM. -/
def NODE_ITEM : String := "item"

/-- Element name constant NODE_RELNOTES (namespace-qualified with separator '#'). -/
def NODE_RELNOTES : String := NS_SPARKLE ++ "#" ++ "releaseNotesLink"

/-- Element name constant NODE_TITLE. -/
def NODE_TITLE : String := "title"

/-- Element name constant NODE_DESCRIPTION. -/
def NODE_DESCRIPTION : String := "description"

/-- Element name constant NODE_ENCLOSURE. -/
def NODE_ENCLOSURE : String := "enclosure"

/-- Attribute name constant ATTR_URL. -/
def ATTR_URL : String := "url"

/-- Attribute name constant ATTR_VERSION (namespace-qualified). -/
def ATTR_VERSION : String := NS_SPARKLE ++ "#" ++ "version"

/-- Attribute name constant ATTR_SHORTVERSION (namespace-qualified). -/
def ATTR_SHORTVERSION : String := NS_SPARKLE ++ "#" ++ "shortVersionString"

/-- One iteration of the attribute-copy loop of the enclosure branch of
OnStartElement: url goes to DownloadURL, sparkle:version to Version and to the
process-wide last_version, sparkle:shortVersionString to ShortVersionString. -/
def copyEnclosureAttr (st : ParseState) (p : String × String) : ParseState :=
  if p.1 = ATTR_URL then
    { st with appcast := { st.appcast with DownloadURL := p.2 } }
  else if p.1 = ATTR_VERSION then
    { st with appcast := { st.appcast with Version := p.2 }, last_version := p.2 }
  else if p.1 = ATTR_SHORTVERSION then
    { st with appcast := { st.appcast with ShortVersionString := p.2 } }
  else st

/-- The `go` decision of the enclosure branch of OnStartElement: accept when
last_version is empty, otherwise accept only when some sparkle:version
attribute compares strictly greater than last_version. -/
def enclosureGo (last : String) (attrs : List (String × String)) : Bool :=
  if last.length > 0 then
    attrs.any (fun p => p.1 == ATTR_VERSION && decide (CompareVersions last p.2 < 0))
  else true

/-- OnStartElement from appcast.cpp. -/
def OnStartElement (st : ParseState) (name : String) (attrs : List (String × String)) :
    ParseState :=
  if name = NODE_CHANNEL then
    { st with in_channel := st.in_channel + 1 }
  else if st.in_channel ≠ 0 ∧ name = NODE_ITEM then
    { st with in_item := st.in_item + 1 }
  else if st.in_item ≠ 0 then
    if name = NODE_RELNOTES then
      { st with in_relnotes := st.in_relnotes + 1 }
    else if name = NODE_TITLE then
      { st with in_title := st.in_title + 1 }
    else if name = NODE_DESCRIPTION then
      { st with in_description := st.in_description + 1 }
    else if name = NODE_ENCLOSURE then
      if enclosureGo st.last_version attrs then attrs.foldl copyEnclosureAttr st
      else st
    else st
  else st

/-- OnEndElement from appcast.cpp.  The end-of-item branch exists in the
source but its body (stopping the parse) is commented out, so it does
nothing; in_item is never decremented. -/
def OnEndElement (st : ParseState) (name : String) : ParseState :=
  if st.in_item ≠ 0 ∧ name = NODE_RELNOTES then
    { st with in_relnotes := st.in_relnotes - 1 }
  else if st.in_item ≠ 0 ∧ name = NODE_TITLE then
    { st with in_title := st.in_title - 1 }
  else if st.in_item ≠ 0 ∧ name = NODE_DESCRIPTION then
    { st with in_description := st.in_description - 1 }
  else if st.in_channel ≠ 0 ∧ name = NODE_ITEM then
    st
  else if name = NODE_CHANNEL then
    { st with in_channel := st.in_channel - 1 }
  else st

/-- OnText from appcast.cpp: append the chunk to the field whose counter is
truthy (nonzero), release notes first, then title, then description. -/
def OnText (st : ParseState) (s : String) : ParseState :=
  if st.in_relnotes ≠ 0 then
    { st with appcast := { st.appcast with ReleaseNotesURL := st.appcast.ReleaseNotesURL ++ s } }
  else if st.in_title ≠ 0 then
    { st with appcast := { st.appcast with Title := st.appcast.Title ++ s } }
  else if st.in_description ≠ 0 then
    { st with appcast := { st.appcast with Description := st.appcast.Description ++ s } }
  else st

/-- One event of the push-based XML tokenizer. -/
inductive XmlEvent where
  | startElement (name : String) (attrs : List (String × String))
  | endElement (name : String)
  | characterData (s : String)
deriving DecidableEq

/-- Dispatch one tokenizer event to the matching handler. -/
def stepEvent (st : ParseState) (ev : XmlEvent) : ParseState :=
  match ev with
  | XmlEvent.startElement name attrs => OnStartElement st name attrs
  | XmlEvent.endElement name => OnEndElement st name
  | XmlEvent.characterData s => OnText st s

/-- Process a sequence of tokenizer events in order. -/
def runEvents (st : ParseState) (evs : List XmlEvent) : ParseState :=
  evs.foldl stepEvent st

/-- The parse context created at the start of Appcast::Load: all five
counters zero, the descriptor being loaded into, and the current value of the
process-wide last_version. -/
def initContext (a : Appcast) (last : String) : ParseState :=
  ⟨a, 0, 0, 0, 0, 0, last⟩

/- ----------------------------------------------------------------------
Appcast::Load and the abstract tokenizer
---------------------------------------------------------------------- -/

/-- Modelled from the spec: the outcome of feeding bytes to the external XML
tokenizer collaborator (expat, not part of this repository) — the callback
events it delivers, and, on malformed input, a parse error with the engine's
own error description (section 6 of the spec). -/
structure TokenizerRun where
  events : List XmlEvent
  parseError : Option String

/-- Modelled from the spec: the external XML engine collaborator — creation
may fail, and feeding bytes produces a TokenizerRun. -/
structure XmlEngine where
  createOk : Bool
  feed : String → TokenizerRun

/-- Observable result of Appcast::Load: the descriptor and process-wide
last_version after the call (their mutations persist even when the call
throws), and the outcome (normal return, or the thrown error message). -/
structure LoadResult where
  appcast : Appcast
  last_version : String
  outcome : Except String Unit

/-- Appcast::Load from appcast.cpp: fail if the parser cannot be created;
otherwise feed the whole document, let the handlers mutate the state, and
throw "XML parser error: " followed by the engine's error description when
the tokenizer reports a parse error. -/
def Appcast.Load (eng : XmlEngine) (a0 : Appcast) (last0 : String) (xml : String) :
    LoadResult :=
  if eng.createOk = false then
    ⟨a0, last0, Except.error "Failed to create XML parser."⟩
  else
    let r := eng.feed xml
    let st := runEvents (initContext a0 last0) r.events
    match r.parseError with
    | some desc => ⟨st.appcast, st.last_version, Except.error ("XML parser error: " ++ desc)⟩
    | none => ⟨st.appcast, st.last_version, Except.ok ()⟩

/- ----------------------------------------------------------------------
Helper definitions for stating the claims
---------------------------------------------------------------------- -/

/-- Value of the last binding of attribute `key` in an expat attribute list
(the copy loop overwrites, so a later duplicate wins). -/
def lastVal (key : String) : List (String × String) → Option String
  | [] => none
  | p :: ps =>
      match lastVal key ps with
      | some v => some v
      | none => if p.1 = key then some p.2 else none

/-- Characterisation of an accepted enclosure event: each of url,
sparkle:version and sparkle:shortVersionString is copied into its descriptor
field exactly when present (sparkle:version also into last_version), and
every other component of the state is unchanged. -/
def EnclosureAccepted (st : ParseState) (attrs : List (String × String))
    (res : ParseState) : Prop :=
  res.appcast.DownloadURL = (lastVal ATTR_URL attrs).getD st.appcast.DownloadURL ∧
  res.appcast.Version = (lastVal ATTR_VERSION attrs).getD st.appcast.Version ∧
  res.last_version = (lastVal ATTR_VERSION attrs).getD st.last_version ∧
  res.appcast.ShortVersionString =
    (lastVal ATTR_SHORTVERSION attrs).getD st.appcast.ShortVersionString ∧
  res.appcast.Title = st.appcast.Title ∧
  res.appcast.Description = st.appcast.Description ∧
  res.appcast.ReleaseNotesURL = st.appcast.ReleaseNotesURL ∧
  res.in_channel = st.in_channel ∧
  res.in_item = st.in_item ∧
  res.in_relnotes = st.in_relnotes ∧
  res.in_title = st.in_title ∧
  res.in_description = st.in_description

/-- Attributes of one enclosure element (url, sparkle:version,
sparkle:shortVersionString all present). -/
structure EnclosureAttrs where
  url : String
  version : String
  shortVersion : String

/-- The start-element event of an enclosure carrying the three attributes. -/
def enclosureEvent (e : EnclosureAttrs) : XmlEvent :=
  XmlEvent.startElement NODE_ENCLOSURE
    [(ATTR_URL, e.url), (ATTR_VERSION, e.version), (ATTR_SHORTVERSION, e.shortVersion)]

/-- Process one enclosure event. -/
def encStep (st : ParseState) (e : EnclosureAttrs) : ParseState :=
  stepEvent st (enclosureEvent e)

/-- Process a sequence of enclosure events. -/
def encRunL (st : ParseState) (es : List EnclosureAttrs) : ParseState :=
  es.foldl encStep st

/-- The state after an accepted enclosure carrying all three attributes: the
three descriptor fields are overwritten and last_version becomes the
enclosure's version; everything else is unchanged. -/
def acceptEnclosure (st : ParseState) (e : EnclosureAttrs) : ParseState :=
  { st with
    appcast := { st.appcast with
      DownloadURL := e.url
      Version := e.version
      ShortVersionString := e.shortVersion }
    last_version := e.version }

/-- Invariant of the enclosure-selection loop after the enclosures `done`
have been processed: the descriptor's Version equals last_version, is the
version of the enclosure at some index j whose url and shortVersionString
were copied, dominates every version seen, and strictly dominates every
earlier index (so j is the first index attaining the maximum). -/
def SelInv (done : List EnclosureAttrs) (st : ParseState) : Prop :=
  st.in_item ≠ 0 ∧
  st.last_version ≠ "" ∧
  st.appcast.Version = st.last_version ∧
  (∀ e ∈ done, 0 ≤ CompareVersions st.last_version e.version) ∧
  ∃ j, ∃ h : j < done.length,
    st.last_version = (done.get ⟨j, h⟩).version ∧
    st.appcast.DownloadURL = (done.get ⟨j, h⟩).url ∧
    st.appcast.ShortVersionString = (done.get ⟨j, h⟩).shortVersion ∧
    ∀ i, ∀ hi : i < done.length, i < j →
      CompareVersions ((done.get ⟨i, hi⟩).version) st.last_version < 0

/-- Bundle of comparison-function laws: a sign-valued comparator that behaves
like comparison through a map into a linear preorder (reflexive, antisymmetric
in sign, substitutive on ties, and transitive on strict inequalities). -/
structure IsCmp {α : Type} (f : α → α → Int) : Prop where
  refl : ∀ x, f x x = 0
  antisym : ∀ x y, f x y = - f y x
  congr : ∀ x y z, f x y = 0 → f x z = f y z
  lt_trans : ∀ x y z, f x y < 0 → f y z < 0 → f x z < 0

/-- A sample engine for exercising Appcast::Load: it delivers a channel, an
item and an enclosure, then reports a parse error on the truncated document. -/
def engEx : XmlEngine :=
  ⟨true, fun _ =>
    ⟨[XmlEvent.startElement NODE_CHANNEL [],
      XmlEvent.startElement NODE_ITEM [],
      XmlEvent.startElement NODE_ENCLOSURE [(ATTR_URL, "http://x/a.exe"), (ATTR_VERSION, "1.0")]],
     some "unclosed token"⟩⟩

/- ----------------------------------------------------------------------
Laws of the sign-valued comparators
---------------------------------------------------------------------- -/

theorem cmp3_self {α : Type} [LinearOrder α] (a : α) : cmp3 a a = 0 := by
  simp [cmp3]

theorem cmp3_eq_zero_iff {α : Type} [LinearOrder α] (a b : α) : cmp3 a b = 0 ↔ a = b := by
  rcases lt_trichotomy a b with h | h | h
  · simp [cmp3, h, h.ne]
  · simp [cmp3, h]
  · simp [cmp3, h, asymm h, h.ne']

theorem cmp3_neg_iff {α : Type} [LinearOrder α] (a b : α) : cmp3 a b < 0 ↔ a < b := by
  rcases lt_trichotomy a b with h | h | h
  · simp [cmp3, h]
  · simp [cmp3, h]
  · simp [cmp3, h, asymm h]

theorem cmp3_antisym {α : Type} [LinearOrder α] (a b : α) : cmp3 a b = - cmp3 b a := by
  rcases lt_trichotomy a b with h | h | h
  · simp [cmp3, h, asymm h]
  · simp [cmp3, h]
  · simp [cmp3, h, asymm h]

theorem isCmp_cmp3 {α : Type} [LinearOrder α] : IsCmp (fun a b : α => cmp3 a b) := by
  constructor
  · intro x; exact cmp3_self x
  · intro x y; exact cmp3_antisym x y
  · intro x y z h
    rw [(cmp3_eq_zero_iff x y).mp h]
  · intro x y z h1 h2
    exact (cmp3_neg_iff x z).mpr (lt_trans ((cmp3_neg_iff x y).mp h1) ((cmp3_neg_iff y z).mp h2))

theorem IsCmp.congr_r {α : Type} {f : α → α → Int} (h : IsCmp f) (x y z : α)
    (h0 : f y z = 0) : f x y = f x z := by
  have h1 := h.antisym x y
  have h2 := h.antisym x z
  have h3 := h.congr y z x h0
  omega

theorem IsCmp.comp {α β : Type} {f : α → α → Int} (h : IsCmp f) (k : β → α) :
    IsCmp (fun x y => f (k x) (k y)) :=
  ⟨fun x => h.refl (k x), fun x y => h.antisym (k x) (k y),
   fun x y z hz => h.congr (k x) (k y) (k z) hz,
   fun x y z h1 h2 => h.lt_trans (k x) (k y) (k z) h1 h2⟩

theorem IsCmp.le_trans {α : Type} {f : α → α → Int} (h : IsCmp f) (x y z : α)
    (h1 : f x y ≤ 0) (h2 : f y z ≤ 0) : f x z ≤ 0 := by
  rcases eq_or_lt_of_le h1 with he | hl
  · rw [h.congr x y z he]; exact h2
  · rcases eq_or_lt_of_le h2 with he2 | hl2
    · rw [← h.congr_r x y z he2]; exact le_of_lt hl
    · exact le_of_lt (h.lt_trans x y z hl hl2)

theorem IsCmp.lt_of_le_of_lt {α : Type} {f : α → α → Int} (h : IsCmp f) (x y z : α)
    (h1 : f x y ≤ 0) (h2 : f y z < 0) : f x z < 0 := by
  rcases eq_or_lt_of_le h1 with he | hl
  · rw [h.congr x y z he]; exact h2
  · exact h.lt_trans x y z hl h2

theorem IsCmp.lt_of_lt_of_le {α : Type} {f : α → α → Int} (h : IsCmp f) (x y z : α)
    (h1 : f x y < 0) (h2 : f y z ≤ 0) : f x z < 0 := by
  rcases eq_or_lt_of_le h2 with he | hl
  · rw [← h.congr_r x y z he]; exact h1
  · exact h.lt_trans x y z h1 hl

/- ----------------------------------------------------------------------
Laws of the generic lexicographic walk
---------------------------------------------------------------------- -/

theorem lexWalk_refl {α : Type} (f : α → α → Int) (e : α → Int) (hf : IsCmp f) :
    ∀ xs, lexWalk f e xs xs = 0 := by
  intro xs
  induction xs with
  | nil => simp [lexWalk]
  | cons a as ih => simp [lexWalk, hf.refl a, ih]

theorem lexWalk_antisym {α : Type} (f : α → α → Int) (e : α → Int) (hf : IsCmp f)
    (he0 : ∀ a, e a ≠ 0) :
    ∀ xs ys, lexWalk f e xs ys = - lexWalk f e ys xs := by
  intro xs
  induction xs with
  | nil =>
      intro ys
      cases ys with
      | nil => simp [lexWalk]
      | cons b bs => simp [lexWalk, he0 b]
  | cons a as ih =>
      intro ys
      cases ys with
      | nil => simp [lexWalk, he0 a]
      | cons b bs =>
          by_cases h : f a b = 0
          · have h' : f b a = 0 := by have := hf.antisym b a; omega
            simp [lexWalk, h, h', ih bs]
          · have h' : ¬ f b a = 0 := by have := hf.antisym b a; omega
            have ha := hf.antisym a b
            simp [lexWalk, h, h', ha]

theorem lexWalk_congr {α : Type} (f : α → α → Int) (e : α → Int) (hf : IsCmp f)
    (he0 : ∀ a, e a ≠ 0) (he1 : ∀ a b, f a b = 0 → e a = e b) :
    ∀ xs ys zs, lexWalk f e xs ys = 0 → lexWalk f e xs zs = lexWalk f e ys zs := by
  intro xs
  induction xs with
  | nil =>
      intro ys zs h
      cases ys with
      | nil => rfl
      | cons b bs => simp [lexWalk, he0 b] at h
  | cons a as ih =>
      intro ys zs h
      cases ys with
      | nil => simp [lexWalk, he0 a] at h
      | cons b bs =>
          by_cases hab : f a b = 0
          · have ht : lexWalk f e as bs = 0 := by simpa [lexWalk, hab] using h
            cases zs with
            | nil => simp [lexWalk, he0 a, he0 b, he1 a b hab]
            | cons c cs =>
                have hfc : f a c = f b c := hf.congr a b c hab
                by_cases hac : f a c = 0
                · have hbc : f b c = 0 := by rw [← hfc]; exact hac
                  simp [lexWalk, hac, hbc, ih bs cs ht]
                · have hbc : ¬ f b c = 0 := by rw [← hfc]; exact hac
                  simp [lexWalk, hac, hbc, hfc]
          · exfalso
            simp [lexWalk, hab] at h

theorem lexWalk_lt_trans {α : Type} (f : α → α → Int) (e : α → Int) (hf : IsCmp f)
    (he0 : ∀ a, e a ≠ 0) (he1 : ∀ a b, f a b = 0 → e a = e b)
    (he2 : ∀ a b, f a b < 0 → e a ≤ e b)
    (he4 : ∀ a b, e a < 0 → 0 < e b → f a b < 0) :
    ∀ xs ys zs, lexWalk f e xs ys < 0 → lexWalk f e ys zs < 0 → lexWalk f e xs zs < 0 := by
  intro xs
  induction xs with
  | nil =>
      intro ys zs h1 h2
      cases ys with
      | nil => simp [lexWalk] at h1
      | cons b bs =>
          rw [show lexWalk f e [] (b :: bs) = - e b by simp [lexWalk, he0 b]] at h1
          have hb : 0 < e b := by omega
          cases zs with
          | nil =>
              rw [show lexWalk f e (b :: bs) [] = e b by simp [lexWalk, he0 b]] at h2
              omega
          | cons c cs =>
              rw [show lexWalk f e [] (c :: cs) = - e c by simp [lexWalk, he0 c]]
              by_cases hbc : f b c = 0
              · have := he1 b c hbc; omega
              · have hlt : f b c < 0 := by simpa [lexWalk, hbc] using h2
                have := he2 b c hlt; omega
  | cons a as ih =>
      intro ys zs h1 h2
      cases ys with
      | nil =>
          rw [show lexWalk f e (a :: as) [] = e a by simp [lexWalk, he0 a]] at h1
          cases zs with
          | nil => simp [lexWalk] at h2
          | cons c cs =>
              rw [show lexWalk f e [] (c :: cs) = - e c by simp [lexWalk, he0 c]] at h2
              have hac : f a c < 0 := he4 a c h1 (by omega)
              simpa [lexWalk, ne_of_lt hac] using hac
      | cons b bs =>
          cases zs with
          | nil =>
              rw [show lexWalk f e (b :: bs) [] = e b by simp [lexWalk, he0 b]] at h2
              rw [show lexWalk f e (a :: as) [] = e a by simp [lexWalk, he0 a]]
              by_cases hab : f a b = 0
              · have := he1 a b hab; omega
              · have hlt : f a b < 0 := by simpa [lexWalk, hab] using h1
                have := he2 a b hlt; omega
          | cons c cs =>
              by_cases hab : f a b = 0
              · have ht1 : lexWalk f e as bs < 0 := by simpa [lexWalk, hab] using h1
                by_cases hbc : f b c = 0
                · have hac : f a c = 0 := by
                    rw [hf.congr a b c hab]; exact hbc
                  have ht2 : lexWalk f e bs cs < 0 := by simpa [lexWalk, hbc] using h2
                  simpa [lexWalk, hac] using ih bs cs ht1 ht2
                · have hlt : f b c < 0 := by simpa [lexWalk, hbc] using h2
                  have hac : f a c < 0 := by rw [hf.congr a b c hab]; exact hlt
                  simpa [lexWalk, ne_of_lt hac] using hac
              · have hlt1 : f a b < 0 := by simpa [lexWalk, hab] using h1
                by_cases hbc : f b c = 0
                · have hac : f a c < 0 := by rw [← hf.congr_r a b c hbc]; exact hlt1
                  simpa [lexWalk, ne_of_lt hac] using hac
                · have hlt2 : f b c < 0 := by simpa [lexWalk, hbc] using h2
                  have hac : f a c < 0 := hf.lt_trans a b c hlt1 hlt2
                  simpa [lexWalk, ne_of_lt hac] using hac

/- ----------------------------------------------------------------------
Laws of the token comparison
---------------------------------------------------------------------- -/

theorem isCmp_charsCmp : IsCmp charsCmp := by
  have hf : IsCmp (fun x y : Char => cmp3 x.toNat y.toNat) :=
    IsCmp.comp isCmp_cmp3 Char.toNat
  have he0 : ∀ _a : Char, (1 : Int) ≠ 0 := fun _ => one_ne_zero
  exact ⟨lexWalk_refl _ _ hf,
         lexWalk_antisym _ _ hf he0,
         lexWalk_congr _ _ hf he0 (fun _ _ _ => rfl),
         lexWalk_lt_trans _ _ hf he0 (fun _ _ _ => rfl) (fun _ _ _ => le_refl 1)
           (fun _ _ h _ => absurd h (by norm_num))⟩

theorem tokCmp_same_str (a b : List Char) (ha : classOf a = CharType.str)
    (hb : classOf b = CharType.str) : tokCmp a b = charsCmp a b := by
  simp [tokCmp, ha, hb]

theorem tokCmp_same_num (a b : List Char) (ha : classOf a = CharType.number)
    (hb : classOf b = CharType.number) : tokCmp a b = cmp3 (atoi a) (atoi b) := by
  rcases lt_trichotomy (atoi a) (atoi b) with h | h | h
  · simp [tokCmp, ha, hb, cmp3, h, not_lt_of_gt h]
  · simp [tokCmp, ha, hb, cmp3, h, lt_irrefl]
  · simp [tokCmp, ha, hb, cmp3, h, not_lt_of_gt h]

theorem tokCmp_same_per (a b : List Char) (ha : classOf a = CharType.period)
    (hb : classOf b = CharType.period) : tokCmp a b = 0 := by
  simp [tokCmp, ha, hb]

theorem tokCmp_cross (a b : List Char) (h : classOf a ≠ classOf b) :
    tokCmp a b = cmp3 (crank (classOf a)) (crank (classOf b)) := by
  rcases ha : classOf a <;> rcases hb : classOf b <;>
    simp_all [tokCmp, crank, cmp3]

theorem tokCmp_eq_zero_class (a b : List Char) (h : tokCmp a b = 0) :
    classOf a = classOf b := by
  by_contra hne
  rw [tokCmp_cross a b hne] at h
  have heq := (cmp3_eq_zero_iff (crank (classOf a)) (crank (classOf b))).mp h
  rcases ha : classOf a <;> rcases hb : classOf b <;> simp_all [crank]

theorem isCmp_tokCmp : IsCmp tokCmp := by
  constructor
  · intro x
    rcases hx : classOf x
    · rw [tokCmp_same_num x x hx hx]; exact cmp3_self _
    · exact tokCmp_same_per x x hx hx
    · rw [tokCmp_same_str x x hx hx]; exact isCmp_charsCmp.refl x
  · intro x y
    by_cases h : classOf x = classOf y
    · rcases hx : classOf x
      · have hy : classOf y = CharType.number := h ▸ hx
        rw [tokCmp_same_num x y hx hy, tokCmp_same_num y x hy hx]
        exact cmp3_antisym _ _
      · rw [tokCmp_same_per x y hx (h ▸ hx), tokCmp_same_per y x (h ▸ hx) hx]; rfl
      · rw [tokCmp_same_str x y hx (h ▸ hx), tokCmp_same_str y x (h ▸ hx) hx]
        exact isCmp_charsCmp.antisym x y
    · rw [tokCmp_cross x y h, tokCmp_cross y x (Ne.symm h)]
      exact cmp3_antisym _ _
  · intro x y z h0
    have hcl := tokCmp_eq_zero_class x y h0
    by_cases hz : classOf z = classOf x
    · rcases hx : classOf x
      · have hy := hcl ▸ hx
        have hzx := hz.trans hx
        have hpay : atoi x = atoi y := by
          rw [tokCmp_same_num x y hx hy] at h0
          exact (cmp3_eq_zero_iff _ _).mp h0
        rw [tokCmp_same_num x z hx hzx, tokCmp_same_num y z hy hzx, hpay]
      · have hy := hcl ▸ hx
        have hzx := hz.trans hx
        rw [tokCmp_same_per x z hx hzx, tokCmp_same_per y z hy hzx]
      · have hy := hcl ▸ hx
        have hzx := hz.trans hx
        have hpay : charsCmp x y = 0 := by
          rw [tokCmp_same_str x y hx hy] at h0
          exact h0
        rw [tokCmp_same_str x z hx hzx, tokCmp_same_str y z hy hzx]
        exact isCmp_charsCmp.congr x y z hpay
    · have hzy : classOf z ≠ classOf y := by rw [← hcl]; exact hz
      rw [tokCmp_cross x z (fun hh => hz hh.symm), tokCmp_cross y z (fun hh => hzy hh.symm), hcl]
  · intro x y z h1 h2
    by_cases hxy : classOf x = classOf y
    · by_cases hyz : classOf y = classOf z
      · -- all three classes equal: transitivity of the payload comparison
        rcases hx : classOf x
        · have hy := hxy ▸ hx
          have hz := hyz ▸ hy
          rw [tokCmp_same_num x y hx hy] at h1
          rw [tokCmp_same_num y z hy hz] at h2
          rw [tokCmp_same_num x z hx hz]
          exact isCmp_cmp3.lt_trans _ _ _ h1 h2
        · have hy := hxy ▸ hx
          have hz := hyz ▸ hy
          rw [tokCmp_same_per x y hx hy] at h1
          omega
        · have hy := hxy ▸ hx
          have hz := hyz ▸ hy
          rw [tokCmp_same_str x y hx hy] at h1
          rw [tokCmp_same_str y z hy hz] at h2
          rw [tokCmp_same_str x z hx hz]
          exact isCmp_charsCmp.lt_trans x y z h1 h2
      · -- y and z differ in class, x has y's class
        have hrk : crank (classOf y) < crank (classOf z) := by
          rw [tokCmp_cross y z hyz] at h2
          exact (cmp3_neg_iff _ _).mp h2
        have hxz : classOf x ≠ classOf z := by
          rw [hxy]; exact hyz
        rw [tokCmp_cross x z hxz, hxy]
        exact (cmp3_neg_iff _ _).mpr hrk
    · have hrk1 : crank (classOf x) < crank (classOf y) := by
        rw [tokCmp_cross x y hxy] at h1
        exact (cmp3_neg_iff _ _).mp h1
      by_cases hyz : classOf y = classOf z
      · have hxz : classOf x ≠ classOf z := by
          rw [← hyz]; exact hxy
        rw [tokCmp_cross x z hxz, ← hyz]
        exact (cmp3_neg_iff _ _).mpr hrk1
      · have hrk2 : crank (classOf y) < crank (classOf z) := by
          rw [tokCmp_cross y z hyz] at h2
          exact (cmp3_neg_iff _ _).mp h2
        have hrk : crank (classOf x) < crank (classOf z) := lt_trans hrk1 hrk2
        have hxz : classOf x ≠ classOf z := by
          intro hh
          rw [hh] at hrk
          exact lt_irrefl _ hrk
        rw [tokCmp_cross x z hxz]
        exact (cmp3_neg_iff _ _).mpr hrk

/- ----------------------------------------------------------------------
Laws of the version walk and of CompareVersions
---------------------------------------------------------------------- -/

theorem tailSign_ne_zero (t : List Char) : tailSign t ≠ 0 := by
  unfold tailSign
  split <;> simp

theorem tailSign_cases (t : List Char) : tailSign t = -1 ∨ tailSign t = 1 := by
  unfold tailSign
  split <;> simp

theorem tailSign_congr (a b : List Char) (h : tokCmp a b = 0) : tailSign a = tailSign b := by
  simp [tailSign, tokCmp_eq_zero_class a b h]

theorem tailSign_mono (a b : List Char) (h : tokCmp a b < 0) : tailSign a ≤ tailSign b := by
  by_cases ha : classOf a = CharType.str
  · have ha2 : tailSign a = -1 := by simp [tailSign, ha]
    rcases tailSign_cases b with hb | hb <;> omega
  · have hb : classOf b ≠ CharType.str := by
      intro hb
      have hne : classOf a ≠ classOf b := by rw [hb]; exact ha
      rw [tokCmp_cross a b hne, hb] at h
      rcases hca : classOf a <;> simp_all [crank, cmp3]
    simp [tailSign, ha, hb]

theorem tailSign_sep (a b : List Char) (ha : tailSign a < 0) (hb : 0 < tailSign b) :
    tokCmp a b < 0 := by
  have ha' : classOf a = CharType.str := by
    by_contra hc
    simp [tailSign, hc] at ha
  have hb' : classOf b ≠ CharType.str := by
    intro hc
    simp [tailSign, hc] at hb
  have hne : classOf a ≠ classOf b := by rw [ha']; exact fun hh => hb' hh.symm
  rw [tokCmp_cross a b hne, ha']
  rcases hcb : classOf b <;> simp_all [crank, cmp3]

theorem versionWalk_eq_lexWalk (xs ys : List (List Char)) :
    versionWalk xs ys = lexWalk tokCmp tailSign xs ys := by
  induction xs generalizing ys with
  | nil =>
      cases ys with
      | nil => simp [versionWalk, lexWalk]
      | cons b bs =>
          by_cases hb : classOf b = CharType.str <;>
            simp [versionWalk, lexWalk, tailSign, hb]
  | cons a as ih =>
      cases ys with
      | nil =>
          by_cases ha : classOf a = CharType.str <;>
            simp [versionWalk, lexWalk, tailSign, ha]
      | cons b bs =>
          by_cases h : tokCmp a b = 0 <;> simp [versionWalk, lexWalk, h, ih]

theorem isCmp_versionWalk : IsCmp versionWalk := by
  have heq : versionWalk = lexWalk tokCmp tailSign :=
    funext fun xs => funext fun ys => versionWalk_eq_lexWalk xs ys
  rw [heq]
  exact ⟨lexWalk_refl _ _ isCmp_tokCmp,
         lexWalk_antisym _ _ isCmp_tokCmp tailSign_ne_zero,
         lexWalk_congr _ _ isCmp_tokCmp tailSign_ne_zero tailSign_congr,
         lexWalk_lt_trans _ _ isCmp_tokCmp tailSign_ne_zero tailSign_congr
           tailSign_mono tailSign_sep⟩

theorem isCmp_CompareVersions : IsCmp CompareVersions :=
  IsCmp.comp isCmp_versionWalk (fun v : String => SplitVersionString v.toList)

theorem cmp3_natCast (m n : Nat) : cmp3 ((m : Int)) ((n : Int)) = cmp3 m n := by
  simp [cmp3, Nat.cast_lt]

/-- C4: the version comparator is consistent: for all strings a, b, c,
cmp(a,a) = 0, cmp(a,b) = -cmp(b,a), and cmp(a,b) > 0 together with
cmp(b,c) > 0 imply cmp(a,c) > 0 (proved for all strings, hence in particular
for well-formed dotted-numeric-with-suffix inputs). -/
theorem comparator_consistency (a b c : String) :
    CompareVersions a a = 0 ∧
    CompareVersions a b = - CompareVersions b a ∧
    (0 < CompareVersions a b → 0 < CompareVersions b c → 0 < CompareVersions a c) := by
  refine ⟨isCmp_CompareVersions.refl a, isCmp_CompareVersions.antisym a b, ?_⟩
  intro h1 h2
  have hba : CompareVersions b a < 0 := by
    have := isCmp_CompareVersions.antisym a b
    omega
  have hcb : CompareVersions c b < 0 := by
    have := isCmp_CompareVersions.antisym b c
    omega
  have hca : CompareVersions c a < 0 := isCmp_CompareVersions.lt_trans c b a hcb hba
  have := isCmp_CompareVersions.antisym a c
  omega

/-- Witness for comparator_consistency at concrete inputs "2", "1.5", "1". -/
theorem comparator_consistency_witness :
    0 < CompareVersions "2" "1.5" ∧ 0 < CompareVersions "1.5" "1" ∧
    0 < CompareVersions "2" "1" :=
  ⟨by decide, by decide, (comparator_consistency "2" "1.5" "1").2.2 (by decide) (by decide)⟩

/-- C3: when the pairwise token walk meets two tokens of different classes it
terminates immediately with the sign given by the class ranks (String below
Period below Number); when one token sequence is exhausted the result is
decided by the first extra token of the longer sequence (String-class extra
token: the shorter version is greater; Number or Period extra token: the
longer version is greater); and the six concrete comparisons of the spec
hold. -/
theorem class_mismatch_and_tail :
    (∀ a b : List Char, ∀ as bs : List (List Char), classOf a ≠ classOf b →
        versionWalk (a :: as) (b :: bs) = cmp3 (crank (classOf a)) (crank (classOf b))) ∧
    (∀ a : List Char, ∀ as : List (List Char), classOf a = CharType.str →
        versionWalk (a :: as) [] = -1) ∧
    (∀ a : List Char, ∀ as : List (List Char), classOf a ≠ CharType.str →
        versionWalk (a :: as) [] = 1) ∧
    (∀ b : List Char, ∀ bs : List (List Char), classOf b = CharType.str →
        versionWalk [] (b :: bs) = 1) ∧
    (∀ b : List Char, ∀ bs : List (List Char), classOf b ≠ CharType.str →
        versionWalk [] (b :: bs) = -1) ∧
    CompareVersions "1.2.0" "1.2rc1" > 0 ∧ CompareVersions "1.2rc1" "1.2.0" < 0 ∧
    CompareVersions "1.5" "1.5b3" > 0 ∧ CompareVersions "1.5.1" "1.5" > 0 ∧
    CompareVersions "2.0" "2.0" = 0 ∧ CompareVersions "1.0" "1.0.0" < 0 := by
  refine ⟨?_, ?_, ?_, ?_, ?_, by decide, by decide, by decide, by decide, by decide, by decide⟩
  · intro a b as bs h
    have hcross := tokCmp_cross a b h
    have hne : tokCmp a b ≠ 0 := fun h0 => h (tokCmp_eq_zero_class a b h0)
    simp [versionWalk, hne, hcross]
    intro h0
    exact absurd (hcross.trans h0) hne
  · intro a as ha
    simp [versionWalk, ha]
  · intro a as ha
    simp [versionWalk, ha]
  · intro b bs hb
    simp [versionWalk, hb]
  · intro b bs hb
    simp [versionWalk, hb]

/-- Witness for class_mismatch_and_tail at concrete tokens. -/
theorem class_mismatch_and_tail_witness :
    versionWalk [['.']] [['r', 'c']] = cmp3 (crank (classOf ['.'])) (crank (classOf ['r', 'c'])) ∧
    versionWalk [['r']] [] = -1 ∧
    versionWalk [['1']] [] = 1 ∧
    versionWalk [] [['r']] = 1 ∧
    versionWalk [] [['1']] = -1 :=
  ⟨class_mismatch_and_tail.1 ['.'] ['r', 'c'] [] [] (by decide),
   class_mismatch_and_tail.2.1 ['r'] [] (by decide),
   class_mismatch_and_tail.2.2.1 ['1'] [] (by decide),
   class_mismatch_and_tail.2.2.2.1 ['r'] [] (by decide),
   class_mismatch_and_tail.2.2.2.2.1 ['1'] [] (by decide)⟩

/-- C5 amended: at a Number-Number position of the walk the contributed sign
equals exact mathematical base-10 comparison of the two digit tokens,
PROVIDED both values fit in the machine int range (at most 2147483647); the
tolerant atoi saturates at INT_MAX beyond that (see number_token_compare_cex),
and equality at the position continues the walk with the next token pair. -/
theorem number_token_compare (a b : List Char) (ha : a ≠ []) (hb : b ≠ [])
    (hda : ∀ c ∈ a, ClassifyChar c = CharType.number)
    (hdb : ∀ c ∈ b, ClassifyChar c = CharType.number)
    (hra : digitsValue 0 a ≤ 2147483647) (hrb : digitsValue 0 b ≤ 2147483647) :
    tokCmp a b = cmp3 (digitsValue 0 a) (digitsValue 0 b) ∧
    (∀ as bs, tokCmp a b = 0 → versionWalk (a :: as) (b :: bs) = versionWalk as bs) := by
  have hca : classOf a = CharType.number := by
    cases a with
    | nil => exact absurd rfl ha
    | cons c cs => simpa [classOf] using hda c (List.mem_cons_self c cs)
  have hcb : classOf b = CharType.number := by
    cases b with
    | nil => exact absurd rfl hb
    | cons c cs => simpa [classOf] using hdb c (List.mem_cons_self c cs)
  have hat : atoi a = ((digitsValue 0 a : Nat) : Int) := by
    unfold atoi
    rw [min_eq_left hra]
  have hbt : atoi b = ((digitsValue 0 b : Nat) : Int) := by
    unfold atoi
    rw [min_eq_left hrb]
  constructor
  · rw [tokCmp_same_num a b hca hcb, hat, hbt, cmp3_natCast]
  · intro as bs h0
    simp [versionWalk, h0]

/-- Witness for number_token_compare at concrete tokens "42" and "7". -/
theorem number_token_compare_witness :
    tokCmp ['4', '2'] ['7'] = cmp3 (digitsValue 0 ['4', '2']) (digitsValue 0 ['7']) ∧
    (∀ as bs, tokCmp ['4', '2'] ['7'] = 0 →
      versionWalk (['4', '2'] :: as) (['7'] :: bs) = versionWalk as bs) :=
  number_token_compare ['4', '2'] ['7'] (by decide) (by decide) (by decide) (by decide)
    (by decide) (by decide)

/-- Counterexample to C5 as stated: the digit tokens "2147483648" and
"9999999999" are mathematically distinct, yet the comparison of the full
version strings made of exactly these number tokens returns 0, because atoi
saturates both at INT_MAX; the contributed sign does not agree with exact
base-10 integer comparison beyond the machine int range. -/
theorem number_token_compare_cex :
    CompareVersions "2147483648" "9999999999" = 0 ∧ (2147483648 : Nat) < 9999999999 := by
  exact ⟨by decide, by decide⟩

/- ----------------------------------------------------------------------
The enclosure branch of OnStartElement
---------------------------------------------------------------------- -/

theorem string_pos_of_ne (s : String) (h : s ≠ "") : 0 < s.length := by
  cases s with
  | mk data =>
      cases data with
      | nil => exact absurd rfl h
      | cons c cs => simp [String.length]

theorem onStart_enclosure (st : ParseState) (attrs : List (String × String))
    (h : st.in_item ≠ 0) :
    OnStartElement st NODE_ENCLOSURE attrs =
      if enclosureGo st.last_version attrs then attrs.foldl copyEnclosureAttr st
      else st := by
  unfold OnStartElement
  rw [if_neg (by decide : ¬ (NODE_ENCLOSURE = NODE_CHANNEL))]
  rw [if_neg (fun hc => (by decide : ¬ (NODE_ENCLOSURE = NODE_ITEM)) hc.2)]
  rw [if_pos h]
  rw [if_neg (by decide : ¬ (NODE_ENCLOSURE = NODE_RELNOTES))]
  rw [if_neg (by decide : ¬ (NODE_ENCLOSURE = NODE_TITLE))]
  rw [if_neg (by decide : ¬ (NODE_ENCLOSURE = NODE_DESCRIPTION))]
  rw [if_pos (rfl : NODE_ENCLOSURE = NODE_ENCLOSURE)]

theorem enclosureGo_iff (last : String) (attrs : List (String × String)) :
    enclosureGo last attrs = true ↔
      (last = "" ∨ ∃ p ∈ attrs, p.1 = ATTR_VERSION ∧ CompareVersions last p.2 < 0) := by
  unfold enclosureGo
  by_cases hl : last = ""
  · subst hl
    rw [if_neg (by decide : ¬ (("" : String).length > 0))]
    simp
  · rw [if_pos (string_pos_of_ne last hl)]
    simp [List.any_eq_true, hl]

theorem attr_url_ne_version : ATTR_URL ≠ ATTR_VERSION := by decide

theorem attr_url_ne_short : ATTR_URL ≠ ATTR_SHORTVERSION := by decide

theorem attr_version_ne_url : ATTR_VERSION ≠ ATTR_URL := by decide

theorem attr_version_ne_short : ATTR_VERSION ≠ ATTR_SHORTVERSION := by decide

theorem attr_short_ne_url : ATTR_SHORTVERSION ≠ ATTR_URL := by decide

theorem attr_short_ne_version : ATTR_SHORTVERSION ≠ ATTR_VERSION := by decide

theorem copyEnclosureAttr_fields (st : ParseState) (p : String × String) :
    (copyEnclosureAttr st p).appcast.DownloadURL =
        (if p.1 = ATTR_URL then p.2 else st.appcast.DownloadURL) ∧
    (copyEnclosureAttr st p).appcast.Version =
        (if p.1 = ATTR_VERSION then p.2 else st.appcast.Version) ∧
    (copyEnclosureAttr st p).last_version =
        (if p.1 = ATTR_VERSION then p.2 else st.last_version) ∧
    (copyEnclosureAttr st p).appcast.ShortVersionString =
        (if p.1 = ATTR_SHORTVERSION then p.2 else st.appcast.ShortVersionString) ∧
    (copyEnclosureAttr st p).appcast.Title = st.appcast.Title ∧
    (copyEnclosureAttr st p).appcast.Description = st.appcast.Description ∧
    (copyEnclosureAttr st p).appcast.ReleaseNotesURL = st.appcast.ReleaseNotesURL ∧
    (copyEnclosureAttr st p).in_channel = st.in_channel ∧
    (copyEnclosureAttr st p).in_item = st.in_item ∧
    (copyEnclosureAttr st p).in_relnotes = st.in_relnotes ∧
    (copyEnclosureAttr st p).in_title = st.in_title ∧
    (copyEnclosureAttr st p).in_description = st.in_description := by
  by_cases h1 : p.1 = ATTR_URL
  · have h2 : p.1 ≠ ATTR_VERSION := by rw [h1]; exact attr_url_ne_version
    have h3 : p.1 ≠ ATTR_SHORTVERSION := by rw [h1]; exact attr_url_ne_short
    simp [copyEnclosureAttr, h1, h2, h3, attr_url_ne_version, attr_url_ne_short]
  · by_cases h2 : p.1 = ATTR_VERSION
    · have h3 : p.1 ≠ ATTR_SHORTVERSION := by rw [h2]; exact attr_version_ne_short
      simp [copyEnclosureAttr, h1, h2, h3, attr_version_ne_url, attr_version_ne_short]
    · by_cases h3 : p.1 = ATTR_SHORTVERSION
      · simp [copyEnclosureAttr, h1, h2, h3, attr_short_ne_url, attr_short_ne_version]
      · simp [copyEnclosureAttr, h1, h2, h3]

theorem copy_fold_spec (attrs : List (String × String)) :
    ∀ st : ParseState,
    (attrs.foldl copyEnclosureAttr st).appcast.DownloadURL =
        (lastVal ATTR_URL attrs).getD st.appcast.DownloadURL ∧
    (attrs.foldl copyEnclosureAttr st).appcast.Version =
        (lastVal ATTR_VERSION attrs).getD st.appcast.Version ∧
    (attrs.foldl copyEnclosureAttr st).last_version =
        (lastVal ATTR_VERSION attrs).getD st.last_version ∧
    (attrs.foldl copyEnclosureAttr st).appcast.ShortVersionString =
        (lastVal ATTR_SHORTVERSION attrs).getD st.appcast.ShortVersionString ∧
    (attrs.foldl copyEnclosureAttr st).appcast.Title = st.appcast.Title ∧
    (attrs.foldl copyEnclosureAttr st).appcast.Description = st.appcast.Description ∧
    (attrs.foldl copyEnclosureAttr st).appcast.ReleaseNotesURL = st.appcast.ReleaseNotesURL ∧
    (attrs.foldl copyEnclosureAttr st).in_channel = st.in_channel ∧
    (attrs.foldl copyEnclosureAttr st).in_item = st.in_item ∧
    (attrs.foldl copyEnclosureAttr st).in_relnotes = st.in_relnotes ∧
    (attrs.foldl copyEnclosureAttr st).in_title = st.in_title ∧
    (attrs.foldl copyEnclosureAttr st).in_description = st.in_description := by
  induction attrs with
  | nil =>
      intro st
      simp [lastVal, List.foldl]
  | cons p ps ih =>
      intro st
      obtain ⟨i1, i2, i3, i4, i5, i6, i7, i8, i9, i10, i11, i12⟩ := ih (copyEnclosureAttr st p)
      obtain ⟨c1, c2, c3, c4, c5, c6, c7, c8, c9, c10, c11, c12⟩ := copyEnclosureAttr_fields st p
      have hfold : (p :: ps).foldl copyEnclosureAttr st =
          ps.foldl copyEnclosureAttr (copyEnclosureAttr st p) := rfl
      rw [hfold]
      refine ⟨?_, ?_, ?_, ?_, by rw [i5, c5], by rw [i6, c6], by rw [i7, c7],
        by rw [i8, c8], by rw [i9, c9], by rw [i10, c10], by rw [i11, c11], by rw [i12, c12]⟩
      · rw [i1, c1]
        cases hps : lastVal ATTR_URL ps with
        | some v => simp [lastVal, hps]
        | none => by_cases hp : p.1 = ATTR_URL <;> simp [lastVal, hps, hp]
      · rw [i2, c2]
        cases hps : lastVal ATTR_VERSION ps with
        | some v => simp [lastVal, hps]
        | none => by_cases hp : p.1 = ATTR_VERSION <;> simp [lastVal, hps, hp]
      · rw [i3, c3]
        cases hps : lastVal ATTR_VERSION ps with
        | some v => simp [lastVal, hps]
        | none => by_cases hp : p.1 = ATTR_VERSION <;> simp [lastVal, hps, hp]
      · rw [i4, c4]
        cases hps : lastVal ATTR_SHORTVERSION ps with
        | some v => simp [lastVal, hps]
        | none => by_cases hp : p.1 = ATTR_SHORTVERSION <;> simp [lastVal, hps, hp]

theorem lastVal_eq_none (key : String) (attrs : List (String × String))
    (h : ∀ p ∈ attrs, p.1 ≠ key) : lastVal key attrs = none := by
  induction attrs with
  | nil => rfl
  | cons p ps ih =>
      have hp : p.1 ≠ key := h p (List.mem_cons_self p ps)
      have hps := ih (fun q hq => h q (List.mem_cons_of_mem p hq))
      simp [lastVal, hps, hp]

/-- C1: for an enclosure start-element event inside an item: if the
process-wide last-seen version is empty the enclosure is accepted
unconditionally (url into DownloadURL, sparkle:version into Version and into
last_version, sparkle:shortVersionString into ShortVersionString, each copied
independently only if present); if it is non-empty the attributes are copied
only when a sparkle:version attribute compares strictly greater than the
last-seen version, and otherwise the whole state is left unchanged by the
event. -/
theorem enclosure_event_filter (st : ParseState) (attrs : List (String × String))
    (h : st.in_item ≠ 0) :
    (st.last_version = "" →
        EnclosureAccepted st attrs (OnStartElement st NODE_ENCLOSURE attrs)) ∧
    (st.last_version ≠ "" →
      ((∃ p ∈ attrs, p.1 = ATTR_VERSION ∧ CompareVersions st.last_version p.2 < 0) →
          EnclosureAccepted st attrs (OnStartElement st NODE_ENCLOSURE attrs)) ∧
      (¬ (∃ p ∈ attrs, p.1 = ATTR_VERSION ∧ CompareVersions st.last_version p.2 < 0) →
          OnStartElement st NODE_ENCLOSURE attrs = st)) := by
  rw [onStart_enclosure st attrs h]
  constructor
  · intro hl
    rw [if_pos ((enclosureGo_iff st.last_version attrs).mpr (Or.inl hl))]
    exact copy_fold_spec attrs st
  · intro hl
    constructor
    · intro hex
      rw [if_pos ((enclosureGo_iff st.last_version attrs).mpr (Or.inr hex))]
      exact copy_fold_spec attrs st
    · intro hnex
      rw [if_neg]
      intro hgo
      rcases (enclosureGo_iff st.last_version attrs).mp hgo with hc | hc
      · exact hl hc
      · exact hnex hc

/-- Witness for enclosure_event_filter: the empty-last-version case at a
concrete state and attribute list. -/
theorem enclosure_event_filter_witness :
    EnclosureAccepted ⟨emptyAppcast, 0, 1, 0, 0, 0, ""⟩
      [(ATTR_URL, "http://x/a.exe"), (ATTR_VERSION, "1.0")]
      (OnStartElement ⟨emptyAppcast, 0, 1, 0, 0, 0, ""⟩ NODE_ENCLOSURE
        [(ATTR_URL, "http://x/a.exe"), (ATTR_VERSION, "1.0")]) :=
  (enclosure_event_filter ⟨emptyAppcast, 0, 1, 0, 0, 0, ""⟩
    [(ATTR_URL, "http://x/a.exe"), (ATTR_VERSION, "1.0")] (by decide)).1 rfl

/-- C9: an enclosure event inside an item whose attribute list carries no
sparkle:version attribute is rejected outright when the last-seen version is
non-empty, and accepted when it is empty — its url and shortVersionString
are copied if present, Version is untouched, and last_version stays empty
(and in_item stays nonzero), so every subsequent version-less enclosure is
also accepted and can overwrite DownloadURL. -/
theorem versionless_enclosure (st : ParseState) (attrs : List (String × String))
    (h : st.in_item ≠ 0) (hnov : ∀ p ∈ attrs, p.1 ≠ ATTR_VERSION) :
    (st.last_version ≠ "" → OnStartElement st NODE_ENCLOSURE attrs = st) ∧
    (st.last_version = "" →
      (OnStartElement st NODE_ENCLOSURE attrs).last_version = "" ∧
      (OnStartElement st NODE_ENCLOSURE attrs).appcast.Version = st.appcast.Version ∧
      (OnStartElement st NODE_ENCLOSURE attrs).appcast.DownloadURL =
        (lastVal ATTR_URL attrs).getD st.appcast.DownloadURL ∧
      (OnStartElement st NODE_ENCLOSURE attrs).appcast.ShortVersionString =
        (lastVal ATTR_SHORTVERSION attrs).getD st.appcast.ShortVersionString ∧
      (OnStartElement st NODE_ENCLOSURE attrs).in_item ≠ 0) := by
  have hnone : lastVal ATTR_VERSION attrs = none := lastVal_eq_none ATTR_VERSION attrs hnov
  rw [onStart_enclosure st attrs h]
  constructor
  · intro hl
    rw [if_neg]
    intro hgo
    rcases (enclosureGo_iff st.last_version attrs).mp hgo with hc | hc
    · exact hl hc
    · obtain ⟨p, hp, hpv, _⟩ := hc
      exact hnov p hp hpv
  · intro hl
    rw [if_pos ((enclosureGo_iff st.last_version attrs).mpr (Or.inl hl))]
    obtain ⟨f1, f2, f3, f4, _, _, _, _, f9, _, _, _⟩ := copy_fold_spec attrs st
    refine ⟨?_, ?_, f1, f4, ?_⟩
    · rw [f3, hnone, Option.getD_none, hl]
    · rw [f2, hnone, Option.getD_none]
    · rw [f9]; exact h

/-- Witness for versionless_enclosure: the empty-last-version case at a
concrete state and a version-less attribute list. -/
theorem versionless_enclosure_witness :
    (OnStartElement ⟨emptyAppcast, 0, 1, 0, 0, 0, ""⟩ NODE_ENCLOSURE
        [(ATTR_URL, "http://x/b.exe")]).last_version = "" ∧
    (OnStartElement ⟨emptyAppcast, 0, 1, 0, 0, 0, ""⟩ NODE_ENCLOSURE
        [(ATTR_URL, "http://x/b.exe")]).appcast.Version = emptyAppcast.Version ∧
    (OnStartElement ⟨emptyAppcast, 0, 1, 0, 0, 0, ""⟩ NODE_ENCLOSURE
        [(ATTR_URL, "http://x/b.exe")]).appcast.DownloadURL =
      (lastVal ATTR_URL [(ATTR_URL, "http://x/b.exe")]).getD emptyAppcast.DownloadURL ∧
    (OnStartElement ⟨emptyAppcast, 0, 1, 0, 0, 0, ""⟩ NODE_ENCLOSURE
        [(ATTR_URL, "http://x/b.exe")]).appcast.ShortVersionString =
      (lastVal ATTR_SHORTVERSION [(ATTR_URL, "http://x/b.exe")]).getD
        emptyAppcast.ShortVersionString ∧
    (OnStartElement ⟨emptyAppcast, 0, 1, 0, 0, 0, ""⟩ NODE_ENCLOSURE
        [(ATTR_URL, "http://x/b.exe")]).in_item ≠ 0 :=
  (versionless_enclosure ⟨emptyAppcast, 0, 1, 0, 0, 0, ""⟩ [(ATTR_URL, "http://x/b.exe")]
    (by decide) (by decide)).2 rfl

/- ----------------------------------------------------------------------
The enclosure-selection invariant
---------------------------------------------------------------------- -/

theorem encStep_spec (st : ParseState) (e : EnclosureAttrs) (h : st.in_item ≠ 0) :
    ((st.last_version = "" ∨ CompareVersions st.last_version e.version < 0) →
      encStep st e = acceptEnclosure st e) ∧
    (st.last_version ≠ "" → ¬ CompareVersions st.last_version e.version < 0 →
      encStep st e = st) := by
  have hstep : encStep st e = OnStartElement st NODE_ENCLOSURE
      [(ATTR_URL, e.url), (ATTR_VERSION, e.version), (ATTR_SHORTVERSION, e.shortVersion)] := rfl
  rw [hstep, onStart_enclosure st _ h]
  have hex : (∃ p ∈ [(ATTR_URL, e.url), (ATTR_VERSION, e.version),
        (ATTR_SHORTVERSION, e.shortVersion)], p.1 = ATTR_VERSION ∧
        CompareVersions st.last_version p.2 < 0) ↔
      CompareVersions st.last_version e.version < 0 := by
    simp [attr_url_ne_version, attr_short_ne_version]
  constructor
  · intro hacc
    have hgo : enclosureGo st.last_version
        [(ATTR_URL, e.url), (ATTR_VERSION, e.version), (ATTR_SHORTVERSION, e.shortVersion)]
          = true := by
      rcases hacc with hl | hc
      · exact (enclosureGo_iff _ _).mpr (Or.inl hl)
      · exact (enclosureGo_iff _ _).mpr (Or.inr (hex.mpr hc))
    rw [if_pos hgo]
    obtain ⟨⟨d, v0, sv, t, ds, rn⟩, cc, ci, cr, ct, cd, lv⟩ := st
    simp [List.foldl, copyEnclosureAttr, acceptEnclosure, attr_url_ne_version,
      attr_url_ne_short, attr_version_ne_url, attr_version_ne_short, attr_short_ne_url,
      attr_short_ne_version]
  · intro hl hnc
    rw [if_neg]
    intro hgo
    rcases (enclosureGo_iff _ _).mp hgo with hc | hc
    · exact hl hc
    · exact hnc (hex.mp hc)

theorem acceptEnclosure_last (st : ParseState) (e : EnclosureAttrs) :
    (acceptEnclosure st e).last_version = e.version := rfl

theorem acceptEnclosure_version (st : ParseState) (e : EnclosureAttrs) :
    (acceptEnclosure st e).appcast.Version = e.version := rfl

theorem acceptEnclosure_url (st : ParseState) (e : EnclosureAttrs) :
    (acceptEnclosure st e).appcast.DownloadURL = e.url := rfl

theorem acceptEnclosure_short (st : ParseState) (e : EnclosureAttrs) :
    (acceptEnclosure st e).appcast.ShortVersionString = e.shortVersion := rfl

theorem acceptEnclosure_item (st : ParseState) (e : EnclosureAttrs) :
    (acceptEnclosure st e).in_item = st.in_item := rfl

theorem selInv_first (st0 : ParseState) (h : st0.in_item ≠ 0) (hl : st0.last_version = "")
    (e : EnclosureAttrs) (hv : e.version ≠ "") : SelInv [e] (encStep st0 e) := by
  rw [(encStep_spec st0 e h).1 (Or.inl hl)]
  refine ⟨h, hv, rfl, ?_, 0, by simp, rfl, rfl, rfl, ?_⟩
  · intro e' he'
    have he : e' = e := by simpa using he'
    subst he
    simp [acceptEnclosure_last, isCmp_CompareVersions.refl]
  · intro i hi hij
    omega

theorem selInv_step (done : List EnclosureAttrs) (st : ParseState) (e : EnclosureAttrs)
    (hI : SelInv done st) (hv : e.version ≠ "") : SelInv (done ++ [e]) (encStep st e) := by
  obtain ⟨hitem, hlne, hver, hdom, j, hj, hjv, hjurl, hjshort, hfirst⟩ := hI
  by_cases hc : CompareVersions st.last_version e.version < 0
  · -- the enclosure is accepted and becomes the new maximum
    rw [(encStep_spec st e hitem).1 (Or.inr hc)]
    refine ⟨hitem, hv, rfl, ?_, done.length, by simp, ?_, ?_, ?_, ?_⟩
    · intro e' he'
      rw [acceptEnclosure_last]
      rcases List.mem_append.mp he' with hin | hin
      · have h1 : 0 ≤ CompareVersions st.last_version e'.version := hdom e' hin
        have h2 : CompareVersions e'.version st.last_version ≤ 0 := by
          have := isCmp_CompareVersions.antisym st.last_version e'.version
          omega
        have h3 : CompareVersions e'.version e.version < 0 :=
          isCmp_CompareVersions.lt_of_le_of_lt _ _ _ h2 hc
        have := isCmp_CompareVersions.antisym e.version e'.version
        omega
      · have he : e' = e := by simpa using hin
        subst he
        simp [isCmp_CompareVersions.refl]
    · rw [acceptEnclosure_last, List.get_eq_getElem]
      rw [List.getElem_concat_length _ _ _ rfl _]
    · rw [acceptEnclosure_url, List.get_eq_getElem]
      rw [List.getElem_concat_length _ _ _ rfl _]
    · rw [acceptEnclosure_short, List.get_eq_getElem]
      rw [List.getElem_concat_length _ _ _ rfl _]
    · intro i hi hij
      rw [acceptEnclosure_last]
      have hid : i < done.length := by simpa using hij
      rw [List.get_eq_getElem, List.getElem_append_left hid]
      have h1 : 0 ≤ CompareVersions st.last_version (done.get ⟨i, hid⟩).version := by
        exact hdom _ (List.get_mem done i hid)
      have h2 : CompareVersions (done.get ⟨i, hid⟩).version st.last_version ≤ 0 := by
        have := isCmp_CompareVersions.antisym st.last_version (done.get ⟨i, hid⟩).version
        omega
      have h3 := isCmp_CompareVersions.lt_of_le_of_lt _ _ _ h2 hc
      rw [List.get_eq_getElem] at h3
      exact h3
  · -- the enclosure is rejected; the state is unchanged
    rw [(encStep_spec st e hitem).2 hlne hc]
    have hjlen : j < (done ++ [e]).length := by
      rw [List.length_append]
      omega
    refine ⟨hitem, hlne, hver, ?_, j, hjlen, ?_, ?_, ?_, ?_⟩
    · intro e' he'
      rcases List.mem_append.mp he' with hin | hin
      · exact hdom e' hin
      · have he : e' = e := by simpa using hin
        subst he
        omega
    · rw [hjv]
      rw [List.get_eq_getElem, List.get_eq_getElem, List.getElem_append_left hj]
    · rw [hjurl]
      rw [List.get_eq_getElem, List.get_eq_getElem, List.getElem_append_left hj]
    · rw [hjshort]
      rw [List.get_eq_getElem, List.get_eq_getElem, List.getElem_append_left hj]
    · intro i hi hij
      have hid : i < done.length := lt_trans hij hj
      rw [List.get_eq_getElem, List.getElem_append_left hid]
      have := hfirst i hid hij
      rw [List.get_eq_getElem] at this
      exact this

theorem selInv_run (es : List EnclosureAttrs) :
    ∀ done : List EnclosureAttrs, ∀ st : ParseState, SelInv done st →
      (∀ e ∈ es, e.version ≠ "") → SelInv (done ++ es) (es.foldl encStep st) := by
  induction es with
  | nil =>
      intro done st hI _
      simpa using hI
  | cons e es ih =>
      intro done st hI hv
      have h1 : SelInv (done ++ [e]) (encStep st e) :=
        selInv_step done st e hI (hv e (List.mem_cons_self e es))
      have h2 := ih (done ++ [e]) (encStep st e) h1
        (fun e' he' => hv e' (List.mem_cons_of_mem e he'))
      have happ : (done ++ [e]) ++ es = done ++ (e :: es) := by simp
      rw [happ] at h2
      exact h2

/-- C2 amended: over any nonempty sequence of enclosure events whose
sparkle:version attributes are all NONEMPTY, processed from a state inside an
item with empty process-wide last-seen version (one parse or several parses
sharing the state), the final Version equals the final last_version and is a
maximum of all versions seen, per the comparator; DownloadURL and
ShortVersionString come from the first enclosure attaining that maximum; and
last_version strictly increases whenever it changes from a nonempty value.
As literally stated the claim fails when an enclosure carries an empty
sparkle:version (see enclosure_selection_maximum_cex): such an enclosure is
accepted without making last_version nonempty, so its "" value can win the
comparator ordering while the descriptor keeps a later version. -/
theorem enclosure_selection_maximum (st0 : ParseState) (h : st0.in_item ≠ 0)
    (hl : st0.last_version = "") (es : List EnclosureAttrs) (hne : es ≠ [])
    (hv : ∀ e ∈ es, e.version ≠ "") :
    ((encRunL st0 es).appcast.Version = (encRunL st0 es).last_version ∧
     (∀ e ∈ es, 0 ≤ CompareVersions ((encRunL st0 es).appcast.Version) e.version) ∧
     ∃ j, ∃ hj : j < es.length,
       (encRunL st0 es).appcast.Version = (es.get ⟨j, hj⟩).version ∧
       (encRunL st0 es).appcast.DownloadURL = (es.get ⟨j, hj⟩).url ∧
       (encRunL st0 es).appcast.ShortVersionString = (es.get ⟨j, hj⟩).shortVersion ∧
       ∀ i, ∀ hi : i < es.length, i < j →
         CompareVersions ((es.get ⟨i, hi⟩).version) ((encRunL st0 es).appcast.Version) < 0) ∧
    (∀ st : ParseState, ∀ e : EnclosureAttrs, st.in_item ≠ 0 → st.last_version ≠ "" →
      (encStep st e).last_version ≠ st.last_version →
      CompareVersions st.last_version ((encStep st e).last_version) < 0) := by
  have hinv : SelInv es (encRunL st0 es) := by
    cases es with
    | nil => exact absurd rfl hne
    | cons e rest =>
        have h1 : SelInv [e] (encStep st0 e) :=
          selInv_first st0 h hl e (hv e (List.mem_cons_self e rest))
        have h2 := selInv_run rest [e] (encStep st0 e) h1
          (fun e' he' => hv e' (List.mem_cons_of_mem e he'))
        have happ : [e] ++ rest = e :: rest := rfl
        rw [happ] at h2
        exact h2
  obtain ⟨hitem, hlne, hver, hdom, j, hj, hjv, hjurl, hjshort, hfirst⟩ := hinv
  refine ⟨⟨hver, ?_, j, hj, ?_, hjurl, hjshort, ?_⟩, ?_⟩
  · intro e he
    rw [hver]
    exact hdom e he
  · rw [hver]
    exact hjv
  · intro i hi hij
    rw [hver]
    exact hfirst i hi hij
  · intro st e hit hln hchg
    by_cases hc : CompareVersions st.last_version e.version < 0
    · rw [(encStep_spec st e hit).1 (Or.inr hc), acceptEnclosure_last]
      exact hc
    · rw [(encStep_spec st e hit).2 hln hc] at hchg
      exact absurd rfl hchg

/-- Counterexample to C2 as stated: with process state starting empty and two
enclosures both carrying a sparkle:version attribute, valued "" then "beta",
the final Version is "beta", yet the version "" of the first enclosure
compares strictly greater than "beta" per the comparator, so Version is not
the comparator-maximum of the versions seen. -/
theorem enclosure_selection_maximum_cex :
    (encRunL ⟨emptyAppcast, 0, 1, 0, 0, 0, ""⟩
        [⟨"u1", "", "s1"⟩, ⟨"u2", "beta", "s2"⟩]).appcast.Version = "beta" ∧
    0 < CompareVersions ""
        ((encRunL ⟨emptyAppcast, 0, 1, 0, 0, 0, ""⟩
          [⟨"u1", "", "s1"⟩, ⟨"u2", "beta", "s2"⟩]).appcast.Version) :=
  ⟨by decide, by decide⟩

/-- Witness for enclosure_selection_maximum at a concrete two-enclosure run. -/
theorem enclosure_selection_maximum_witness :
    ((encRunL ⟨emptyAppcast, 0, 1, 0, 0, 0, ""⟩
        [⟨"u1", "1.0", "s1"⟩, ⟨"u2", "2.0", "s2"⟩]).appcast.Version =
      (encRunL ⟨emptyAppcast, 0, 1, 0, 0, 0, ""⟩
        [⟨"u1", "1.0", "s1"⟩, ⟨"u2", "2.0", "s2"⟩]).last_version ∧
     (∀ e ∈ [(⟨"u1", "1.0", "s1"⟩ : EnclosureAttrs), ⟨"u2", "2.0", "s2"⟩],
        0 ≤ CompareVersions ((encRunL ⟨emptyAppcast, 0, 1, 0, 0, 0, ""⟩
          [⟨"u1", "1.0", "s1"⟩, ⟨"u2", "2.0", "s2"⟩]).appcast.Version) e.version) ∧
     ∃ j, ∃ hj : j < ([(⟨"u1", "1.0", "s1"⟩ : EnclosureAttrs), ⟨"u2", "2.0", "s2"⟩]).length,
       (encRunL ⟨emptyAppcast, 0, 1, 0, 0, 0, ""⟩
          [⟨"u1", "1.0", "s1"⟩, ⟨"u2", "2.0", "s2"⟩]).appcast.Version =
         (([(⟨"u1", "1.0", "s1"⟩ : EnclosureAttrs), ⟨"u2", "2.0", "s2"⟩]).get ⟨j, hj⟩).version ∧
       (encRunL ⟨emptyAppcast, 0, 1, 0, 0, 0, ""⟩
          [⟨"u1", "1.0", "s1"⟩, ⟨"u2", "2.0", "s2"⟩]).appcast.DownloadURL =
         (([(⟨"u1", "1.0", "s1"⟩ : EnclosureAttrs), ⟨"u2", "2.0", "s2"⟩]).get ⟨j, hj⟩).url ∧
       (encRunL ⟨emptyAppcast, 0, 1, 0, 0, 0, ""⟩
          [⟨"u1", "1.0", "s1"⟩, ⟨"u2", "2.0", "s2"⟩]).appcast.ShortVersionString =
         (([(⟨"u1", "1.0", "s1"⟩ : EnclosureAttrs), ⟨"u2", "2.0", "s2"⟩]).get ⟨j, hj⟩).shortVersion ∧
       ∀ i, ∀ hi : i < ([(⟨"u1", "1.0", "s1"⟩ : EnclosureAttrs), ⟨"u2", "2.0", "s2"⟩]).length,
         i < j →
         CompareVersions ((([(⟨"u1", "1.0", "s1"⟩ : EnclosureAttrs),
             ⟨"u2", "2.0", "s2"⟩]).get ⟨i, hi⟩).version)
           ((encRunL ⟨emptyAppcast, 0, 1, 0, 0, 0, ""⟩
             [⟨"u1", "1.0", "s1"⟩, ⟨"u2", "2.0", "s2"⟩]).appcast.Version) < 0) ∧
    (∀ st : ParseState, ∀ e : EnclosureAttrs, st.in_item ≠ 0 → st.last_version ≠ "" →
      (encStep st e).last_version ≠ st.last_version →
      CompareVersions st.last_version ((encStep st e).last_version) < 0) :=
  enclosure_selection_maximum ⟨emptyAppcast, 0, 1, 0, 0, 0, ""⟩ (by decide) rfl
    [⟨"u1", "1.0", "s1"⟩, ⟨"u2", "2.0", "s2"⟩] (List.cons_ne_nil _ _) (by decide)

/- ----------------------------------------------------------------------
Text accumulation and the depth counters
---------------------------------------------------------------------- -/

theorem OnText_fields (st : ParseState) (s : String) :
    (OnText st s).appcast.ReleaseNotesURL =
      (if st.in_relnotes ≠ 0 then st.appcast.ReleaseNotesURL ++ s
       else st.appcast.ReleaseNotesURL) ∧
    (OnText st s).appcast.Title =
      (if st.in_relnotes = 0 ∧ st.in_title ≠ 0 then st.appcast.Title ++ s
       else st.appcast.Title) ∧
    (OnText st s).appcast.Description =
      (if st.in_relnotes = 0 ∧ st.in_title = 0 ∧ st.in_description ≠ 0 then
        st.appcast.Description ++ s
       else st.appcast.Description) := by
  by_cases h1 : st.in_relnotes = 0
  · by_cases h2 : st.in_title = 0
    · by_cases h3 : st.in_description = 0
      · simp [OnText, h1, h2, h3]
      · simp [OnText, h1, h2, h3]
    · simp [OnText, h1, h2]
  · simp [OnText, h1]

theorem end_item_noop (st : ParseState) : OnEndElement st NODE_ITEM = st := by
  unfold OnEndElement
  rw [if_neg (fun hc => (by decide : ¬ (NODE_ITEM = NODE_RELNOTES)) hc.2)]
  rw [if_neg (fun hc => (by decide : ¬ (NODE_ITEM = NODE_TITLE)) hc.2)]
  rw [if_neg (fun hc => (by decide : ¬ (NODE_ITEM = NODE_DESCRIPTION)) hc.2)]
  by_cases h : st.in_channel ≠ 0
  · rw [if_pos ⟨h, rfl⟩]
  · rw [if_neg (fun hc => h hc.1)]
    rw [if_neg (by decide : ¬ (NODE_ITEM = NODE_CHANNEL))]

/-- C6 amended: character data is appended verbatim, in call order, to the
field whose depth counter is truthy, release notes first, then title, then
description; the counters are driven by the gated start and end handlers, but
the end of an item leaves item-depth unchanged (the end-of-item handler is a
no-op, its body being commented out in the source), so "inside an item"
persists once entered and text accumulation is not re-gated on the current
item or channel depth. -/
theorem text_gating (st0 : ParseState) (evs : List XmlEvent) (s : String) :
    ((runEvents st0 (evs ++ [XmlEvent.characterData s])).appcast.ReleaseNotesURL =
      (if (runEvents st0 evs).in_relnotes ≠ 0 then
        (runEvents st0 evs).appcast.ReleaseNotesURL ++ s
       else (runEvents st0 evs).appcast.ReleaseNotesURL)) ∧
    ((runEvents st0 (evs ++ [XmlEvent.characterData s])).appcast.Title =
      (if (runEvents st0 evs).in_relnotes = 0 ∧ (runEvents st0 evs).in_title ≠ 0 then
        (runEvents st0 evs).appcast.Title ++ s
       else (runEvents st0 evs).appcast.Title)) ∧
    ((runEvents st0 (evs ++ [XmlEvent.characterData s])).appcast.Description =
      (if (runEvents st0 evs).in_relnotes = 0 ∧ (runEvents st0 evs).in_title = 0 ∧
           (runEvents st0 evs).in_description ≠ 0 then
        (runEvents st0 evs).appcast.Description ++ s
       else (runEvents st0 evs).appcast.Description)) ∧
    (∀ st : ParseState, OnEndElement st NODE_ITEM = st) := by
  have hrun : runEvents st0 (evs ++ [XmlEvent.characterData s]) =
      OnText (runEvents st0 evs) s := by
    unfold runEvents
    rw [List.foldl_append]
    rfl
  rw [hrun]
  obtain ⟨t1, t2, t3⟩ := OnText_fields (runEvents st0 evs) s
  exact ⟨t1, t2, t3, end_item_noop⟩

/-- Counterexample to C6 as stated: after channel, item, end-of-item, the
item-depth counter is still 1 (the claim says the end of item decrements it),
and character data inside a title opened after the item was closed is still
appended to Title. -/
theorem text_gating_cex :
    (runEvents (initContext emptyAppcast "")
      [XmlEvent.startElement NODE_CHANNEL [], XmlEvent.startElement NODE_ITEM [],
       XmlEvent.endElement NODE_ITEM, XmlEvent.startElement NODE_TITLE [],
       XmlEvent.characterData "X"]).appcast.Title = "X" ∧
    (runEvents (initContext emptyAppcast "")
      [XmlEvent.startElement NODE_CHANNEL [], XmlEvent.startElement NODE_ITEM [],
       XmlEvent.endElement NODE_ITEM]).in_item = 1 :=
  ⟨by decide, by decide⟩

theorem stepEvent_item_mono (st : ParseState) (ev : XmlEvent) :
    st.in_item ≤ (stepEvent st ev).in_item := by
  cases ev with
  | startElement name attrs =>
      obtain ⟨_, _, _, _, _, _, _, _, f9, _, _, _⟩ := copy_fold_spec attrs st
      show st.in_item ≤ (OnStartElement st name attrs).in_item
      unfold OnStartElement
      split_ifs <;> simp [f9]
  | endElement name =>
      show st.in_item ≤ (OnEndElement st name).in_item
      unfold OnEndElement
      split_ifs <;> simp
  | characterData s =>
      show st.in_item ≤ (OnText st s).in_item
      unfold OnText
      split_ifs <;> simp

/-- C7 amended: the counters are NOT clamped at zero — an unmatched end tag
can drive them negative (see counter_clamp_cex) — but in_item is never
decremented by any event, so it is monotone and stays nonnegative from any
nonnegative start. -/
theorem item_depth_nonneg (st0 : ParseState) (evs : List XmlEvent)
    (h : 0 ≤ st0.in_item) :
    (∀ st : ParseState, ∀ ev : XmlEvent, st.in_item ≤ (stepEvent st ev).in_item) ∧
    0 ≤ (runEvents st0 evs).in_item := by
  refine ⟨stepEvent_item_mono, ?_⟩
  induction evs generalizing st0 with
  | nil => exact h
  | cons ev evs ih =>
      exact ih (stepEvent st0 ev) (le_trans h (stepEvent_item_mono st0 ev))

/-- Witness for item_depth_nonneg at a concrete event list. -/
theorem item_depth_nonneg_witness :
    (∀ st : ParseState, ∀ ev : XmlEvent, st.in_item ≤ (stepEvent st ev).in_item) ∧
    0 ≤ (runEvents (initContext emptyAppcast "")
      [XmlEvent.startElement NODE_CHANNEL [], XmlEvent.endElement NODE_CHANNEL]).in_item :=
  item_depth_nonneg (initContext emptyAppcast "")
    [XmlEvent.startElement NODE_CHANNEL [], XmlEvent.endElement NODE_CHANNEL] (by decide)

/-- Counterexample to C7 as stated: a single unmatched end-of-channel event
drives the channel counter to -1; decrements are not clamped at zero. -/
theorem counter_clamp_cex :
    (runEvents (initContext emptyAppcast "")
      [XmlEvent.endElement NODE_CHANNEL]).in_channel = -1 := by
  decide

/- ----------------------------------------------------------------------
Appcast::Load
---------------------------------------------------------------------- -/

/-- C8: Appcast::Load fails exactly when the engine cannot be created or the
tokenizer reports a parse error on the fed bytes; in the tokenizer-error case
the thrown message embeds the engine's own error description after the fixed
prefix; and when the tokenizer reports an error the call never returns
normally. -/
theorem load_failure_iff (eng : XmlEngine) (a0 : Appcast) (last0 xml : String) :
    ((∃ msg, (Appcast.Load eng a0 last0 xml).outcome = Except.error msg) ↔
      (eng.createOk = false ∨ ((eng.feed xml).parseError).isSome = true)) ∧
    (∀ desc, eng.createOk = true → (eng.feed xml).parseError = some desc →
      (Appcast.Load eng a0 last0 xml).outcome =
        Except.error ("XML parser error: " ++ desc)) ∧
    (eng.createOk = true → (eng.feed xml).parseError = none →
      (Appcast.Load eng a0 last0 xml).outcome = Except.ok ()) := by
  unfold Appcast.Load
  by_cases hc : eng.createOk = false
  · simp [hc]
  · have hc' : eng.createOk = true := by
      cases h : eng.createOk
      · exact absurd h hc
      · rfl
    cases hpe : (eng.feed xml).parseError with
    | some desc => simp [hc, hc', hpe]
    | none => simp [hc, hc', hpe]

/-- Witness for load_failure_iff at the sample engine. -/
theorem load_failure_iff_witness :
    (Appcast.Load engEx emptyAppcast "" "<rss").outcome =
      Except.error ("XML parser error: " ++ "unclosed token") :=
  (load_failure_iff engEx emptyAppcast "" "<rss").2.1 "unclosed token" rfl rfl

/-- C10: when Appcast::Load fails with a tokenizer parse error, the
descriptor and the process-wide last_version that the call leaves behind are
exactly the ones produced by processing every event delivered before the
error point — nothing is rolled back. -/
theorem load_not_atomic (eng : XmlEngine) (a0 : Appcast) (last0 xml desc : String)
    (hc : eng.createOk = true) (he : (eng.feed xml).parseError = some desc) :
    Appcast.Load eng a0 last0 xml =
      ⟨(runEvents (initContext a0 last0) ((eng.feed xml).events)).appcast,
       (runEvents (initContext a0 last0) ((eng.feed xml).events)).last_version,
       Except.error ("XML parser error: " ++ desc)⟩ := by
  unfold Appcast.Load
  rw [if_neg (by simp [hc])]
  simp [he]

/-- Witness for load_not_atomic at the sample engine: the enclosure delivered
before the error persists in the returned state. -/
theorem load_not_atomic_witness :
    Appcast.Load engEx emptyAppcast "" "<rss" =
      ⟨(runEvents (initContext emptyAppcast "") ((engEx.feed "<rss").events)).appcast,
       (runEvents (initContext emptyAppcast "") ((engEx.feed "<rss").events)).last_version,
       Except.error ("XML parser error: " ++ "unclosed token")⟩ :=
  load_not_atomic engEx emptyAppcast "" "<rss" "unclosed token" rfl rfl
